import Mathlib

/-!
Verification of the pyro build-pipeline orchestrator (`pyro/BuildFacade.py`,
`pyro/Performance/CompileData.py`): log rotation, the incremental-build
analyzer, compile-stage aggregation, the anonymize stage and option
resolution, shallowly embedded in Lean.  Filesystem state (modification
times, file existence, directory listings, binary headers, deletion
permissions) is passed explicitly; timestamps are modelled as rationals.
-/

namespace Pyro

/-- Python `s.endswith(suf)`: `suf` is a suffix of `s`. -/
def endswith (s suf : String) : Bool :=
  List.isSuffixOf suf.data s.data

/-- Python `s.startswith(pre)`: `pre` is a prefix of `s`. -/
def startswith (s pre : String) : Bool :=
  List.isPrefixOf pre.data s.data

/-- Python `os.path.basename` (posix): the part of the path after the last
slash. -/
def basename (p : String) : String :=
  ⟨(p.data.reverse.takeWhile (fun c => c ≠ '/')).reverse⟩

/-- The root part of Python `os.path.splitext` applied to a bare file name
(no slashes): strip the extension at the last dot, unless every character
before that dot is itself a dot (e.g. `.bashrc` keeps its name). -/
def splitextStem (name : String) : String :=
  let rev := name.data.reverse
  let ext := rev.takeWhile (fun c => c ≠ '.')
  if ext.length = rev.length then name
  else
    let pre := rev.drop (ext.length + 1)
    if pre.any (fun c => c ≠ '.') then ⟨pre.reverse⟩ else name

/-- `os.path.splitext(os.path.basename(psc_path))[0]` from
`_find_modified_scripts`. -/
def scriptName (p : String) : String :=
  splitextStem (basename p)

/-- Python `os.path.join` (posix, two components): absolute second
component wins; otherwise insert a slash unless one is already there. -/
def joinPath (a b : String) : String :=
  if startswith b "/" then b
  else if a = "" || endswith a "/" then a ++ b
  else a ++ "/" ++ b

/-- The filesystem as the orchestrator observes it: modification times
(`os.path.getmtime`), file existence (`os.path.isfile`), and the embedded
compilation time read from a compiled artifact's header
(`PexReader.get_header`; `none` models the `ValueError` raised on an
unknown magic). -/
structure FS where
  mtime : String → Rat
  isfile : String → Bool
  header : String → Option Rat

/-- Modelled from the spec: `PathHelper.uniqify` is not under `src/`; per
spec section 4.2 the analyzer's result has "duplicates removed, first-seen
order preserved".  `seen` accumulates the paths already emitted. -/
def uniqifyAux (seen : List String) : List String → List String
  | [] => []
  | x :: xs =>
    if x ∈ seen then uniqifyAux seen xs
    else x :: uniqifyAux (x :: seen) xs

/-- Modelled from the spec: duplicate removal preserving first-seen order
(`PathHelper.uniqify`). -/
def uniqify (l : List String) : List String :=
  uniqifyAux [] l

/-- One iteration of the loop in `BuildFacade._find_modified_scripts` for
source script `psc_path`: the first artifact whose path ends in
`<scriptName>.pex`, if it exists on disk, has a readable header, and the
source's modification time is strictly below the embedded compilation
time; `none` when the iteration appends nothing (`continue`). -/
def contribution (fs : FS) (pex_paths : List String) (psc_path : String) : Option String :=
  let name := scriptName psc_path
  match pex_paths.filter (fun pex => endswith pex (name ++ ".pex")) with
  | [] => none
  | pex :: _ =>
    if fs.isfile pex then
      match fs.header pex with
      | none => none
      | some t => if fs.mtime psc_path < t then some pex else none
    else none

/-- `BuildFacade._find_modified_scripts`: collect, over all source
scripts, the artifacts already up to date, deduplicated. -/
def find_modified_scripts (fs : FS) (psc_paths pex_paths : List String) : List String :=
  uniqify (psc_paths.filterMap (contribution fs pex_paths))

/-- Modelled from the spec: `ProcessState` is not under `src/`; per spec
section 3 a `ProcessOutcome` is one of Success, Failure, one per command,
independent of all others. -/
inductive ProcessState where
  | success
  | failure
deriving DecidableEq

/-- The sequential branch of `BuildFacade.try_compile`: run each command
in list order through `ProcessManager.run_compiler` (here the pure
outcome map), bumping the success counter on `SUCCESS`.  Returns the
commands actually handed to the runner, in order, and the final counter.
The loop has no early exit: a failure only skips the increment. -/
def execLoop {α : Type} (outcome : α → ProcessState) : List α → Nat → List α × Nat
  | [], n => ([], n)
  | c :: cs, n =>
    let st := outcome c
    let rest := execLoop outcome cs (if st = ProcessState.success then n + 1 else n)
    (c :: rest.1, rest.2)

/-- `multiprocessing.Pool.imap(f, commands)`: the pool applies `f`
exactly once to every command and yields the outcomes in submission
order (completion order is unconstrained; `imap` reorders for the
consumer). -/
def imap {α β : Type} (f : α → β) (l : List α) : List β :=
  l.map f

/-- The drain loop of the pooled branch of `try_compile`: count the
`SUCCESS` states as they are yielded. -/
def drainLoop (states : List ProcessState) (n : Nat) : Nat :=
  states.foldl (fun acc s => if s = ProcessState.success then acc + 1 else acc) n

/-- Observable result of one `try_compile` call: the commands passed to
the runner in order, the final success counter, `command_count`, and the
worker-pool size when the pooled branch was taken. -/
structure CompileRun (α : Type) where
  executed : List α
  success_count : Nat
  command_count : Nat
  pool_size : Option Nat

/-- `BuildFacade.try_compile`: strategy selection and aggregation.
`initSuccess` is the orchestrator's `success_count` before the call
(`0` on a freshly constructed instance).  Sequential when `no_parallel`
is set or there is exactly one command; pooled (pool size
`min(command_count, worker_limit)`) when there is more than one; a no-op
when there are no commands. -/
def try_compile {α : Type} (no_parallel : Bool) (worker_limit : Nat)
    (outcome : α → ProcessState) (commands : List α) (initSuccess : Nat) :
    CompileRun α :=
  let command_count := commands.length
  if no_parallel || command_count == 1 then
    let r := execLoop outcome commands initSuccess
    { executed := r.1, success_count := r.2,
      command_count := command_count, pool_size := none }
  else if command_count > 0 then
    { executed := commands,
      success_count := drainLoop (imap outcome commands) initSuccess,
      command_count := command_count,
      pool_size := some (min command_count worker_limit) }
  else
    { executed := [], success_count := initSuccess,
      command_count := command_count, pool_size := none }

/-- The `BuildFacade.failed_count` property: Python integer subtraction
`command_count - success_count`. -/
def failed_count {α : Type} (r : CompileRun α) : Int :=
  (r.command_count : Int) - (r.success_count : Int)

/-- Observable effects of the anonymize stage: the error diagnostic for
"nothing to anonymize", a warning for an artifact absent on disk, or an
`Anonymizer.anonymize_script` call mutating a file. -/
inductive AnonEvent where
  | error
  | warn (path : String)
  | anonymized (path : String)
deriving DecidableEq

/-- The loop in `BuildFacade.try_anonymize`: for each artifact path, warn
and continue when the file is absent, otherwise anonymize it. -/
def anonymizeLoop (fs : FS) : List String → List AnonEvent
  | [] => []
  | p :: ps =>
    if fs.isfile p then AnonEvent.anonymized p :: anonymizeLoop fs ps
    else AnonEvent.warn p :: anonymizeLoop fs ps

/-- `BuildFacade.try_anonymize`: when no source changed, nothing is
missing and incremental building is on, record the error diagnostic and
stop; otherwise run the loop over every known artifact path. -/
def try_anonymize (fs : FS) (psc_paths pex_paths missing_scripts : List String)
    (no_incremental_build : Bool) : List AnonEvent :=
  let scripts := find_modified_scripts fs psc_paths pex_paths
  if scripts.isEmpty && missing_scripts.isEmpty && !no_incremental_build then
    [AnonEvent.error]
  else
    anonymizeLoop fs pex_paths

/-- Observable effect of one deletion attempt during log rotation: the
file was removed, or a `PermissionError` was logged as an error. -/
inductive DelEvent where
  | removed (path : String)
  | error (path : String)
deriving DecidableEq

/-- The deletion loop at the end of `BuildFacade._rotate_logs`: attempt
`os.remove` on every candidate; a denied deletion is logged and the loop
continues with the rest. -/
def deleteLoop (canDelete : String → Bool) : List String → List DelEvent
  | [] => []
  | p :: ps =>
    if canDelete p then DelEvent.removed p :: deleteLoop canDelete ps
    else DelEvent.error p :: deleteLoop canDelete ps

/-- The run-log paths `_rotate_logs` leaves in the directory and the
`logs_to_remove` it selects for deletion. -/
structure RotatePlan where
  kept : List String
  removed : List String
deriving DecidableEq

/-- The selection part of `BuildFacade._rotate_logs`.  `listing` is the
`os.listdir` result (the spec guarantees run-log file names sort by
creation time); `keep_count` is decremented by one to account for the
new log about to be written.  If the directory is missing or at most
`keep_count - 1` run logs exist, nothing is removed.  The Python slice
`log_paths[-keep:]` is modelled with Python's semantics, where a zero
count keeps the whole list. -/
def rotate_plan (dirExists : Bool) (log_path : String) (listing : List String)
    (keep_count : Nat) : RotatePlan :=
  if !dirExists then { kept := [], removed := [] }
  else
    let keep := keep_count - 1
    let log_files := listing.filter (fun f => endswith f ".log")
    if !(log_files.length > keep) then
      { kept := log_files.map (joinPath log_path), removed := [] }
    else
      let log_paths := log_files.map (joinPath log_path)
      let logs_to_retain :=
        if keep = 0 then log_paths else log_paths.drop (log_paths.length - keep)
      { kept := logs_to_retain,
        removed := log_paths.filter (fun f => !(logs_to_retain.contains f)) }

/-- `BuildFacade._rotate_logs` end to end: select the removal candidates,
then attempt each deletion. -/
def rotate_logs (canDelete : String → Bool) (dirExists : Bool) (log_path : String)
    (listing : List String) (keep_count : Nat) : List DelEvent :=
  deleteLoop canDelete (rotate_plan dirExists log_path listing keep_count).removed

/-- Modelled from the spec: `TimeElapsed` is not under `src/`; per spec
section 4.4 it holds the run's start and end wall-clock timestamps. -/
structure TimeElapsed where
  start_time : Rat
  end_time : Rat

/-- Modelled from the spec: `elapsed = endTime − startTime`. -/
def TimeElapsed.value (t : TimeElapsed) : Rat :=
  t.end_time - t.start_time

/-- Modelled from the spec: `average = elapsed / successCount` when
`successCount > 0`, else `elapsed` — the explicit division-by-zero
fallback used by `build_time` and `CompileData.to_string`. -/
def TimeElapsed.average (t : TimeElapsed) (success_count : Nat) : Rat :=
  if success_count > 0 then t.value / (success_count : Rat) else t.value

/-- The skip condition of the option-resolution loop in
`BuildFacade.__init__`: fixed names, the `ignore_`/`no_`/`force_`/
`resolve_` name groups, and `_token` suffixes are left untouched. -/
def skip_resolution (key : String) : Bool :=
  ["args", "input_path", "anonymize", "package", "zip", "zip_compression"].contains key
    || startswith key "ignore_" || startswith key "no_" || startswith key "force_"
    || startswith key "resolve_" || endswith key "_token"

/-- The option-resolution loop of `BuildFacade.__init__` over the options
object viewed as an association list of field name to value; `resolver`
models `getattr(self.ppj, f'get_{key}')()`. -/
def resolve_options {V : Type} (resolver : String → V)
    (options : List (String × V)) : List (String × V) :=
  options.map (fun kv => if skip_resolution kv.1 then kv else (kv.1, resolver kv.1))

end Pyro

namespace Pyro

theorem uniqifyAux_mem (x : String) :
    ∀ (l seen : List String), x ∈ uniqifyAux seen l ↔ x ∈ l ∧ x ∉ seen := by
  intro l
  induction l with
  | nil => intro seen; simp [uniqifyAux]
  | cons y ys ih =>
    intro seen
    by_cases hy : y ∈ seen
    · simp only [uniqifyAux, if_pos hy, ih]
      constructor
      · rintro ⟨hx, hns⟩
        exact ⟨List.mem_cons_of_mem _ hx, hns⟩
      · rintro ⟨hx, hns⟩
        rcases List.mem_cons.mp hx with rfl | hx
        · exact absurd hy hns
        · exact ⟨hx, hns⟩
    · simp only [uniqifyAux, if_neg hy]
      constructor
      · intro hx
        rcases List.mem_cons.mp hx with rfl | hx
        · exact ⟨List.mem_cons_self _ _, hy⟩
        · rcases (ih (y :: seen)).mp hx with ⟨h1, h2⟩
          refine ⟨List.mem_cons_of_mem _ h1, fun hs => h2 (List.mem_cons_of_mem _ hs)⟩
      · rintro ⟨hx, hns⟩
        rcases List.mem_cons.mp hx with rfl | hx
        · exact List.mem_cons_self _ _
        · by_cases hxy : x = y
          · subst hxy; exact List.mem_cons_self _ _
          · refine List.mem_cons_of_mem _ ((ih (y :: seen)).mpr ⟨hx, ?_⟩)
            intro hs
            rcases List.mem_cons.mp hs with h | h
            · exact hxy h
            · exact hns h

theorem uniqify_mem (x : String) (l : List String) : x ∈ uniqify l ↔ x ∈ l := by
  rw [uniqify, uniqifyAux_mem]
  simp

theorem find_modified_scripts_mem (fs : FS) (psc_paths pex_paths : List String) (a : String) :
    a ∈ find_modified_scripts fs psc_paths pex_paths ↔
      ∃ psc ∈ psc_paths, contribution fs pex_paths psc = some a := by
  rw [find_modified_scripts, uniqify_mem, List.mem_filterMap]

theorem execLoop_executed {α : Type} (outcome : α → ProcessState) (cs : List α) :
    ∀ n, (execLoop outcome cs n).1 = cs := by
  induction cs with
  | nil => intro n; rfl
  | cons c cs ih => intro n; simp only [execLoop, ih]

theorem execLoop_eq_drain {α : Type} (outcome : α → ProcessState) (cs : List α) :
    ∀ n, (execLoop outcome cs n).2 = drainLoop (imap outcome cs) n := by
  induction cs with
  | nil => intro n; rfl
  | cons c cs ih =>
    intro n
    simp only [execLoop, imap, List.map_cons, drainLoop, List.foldl_cons] at *
    exact ih _

theorem drainLoop_le (states : List ProcessState) :
    ∀ n, drainLoop states n ≤ n + states.length := by
  induction states with
  | nil => intro n; simp [drainLoop]
  | cons s ss ih =>
    intro n
    simp only [drainLoop, List.foldl_cons, List.length_cons] at *
    refine le_trans (ih _) ?_
    split
    · omega
    · omega

/-- C3: for every command list and outcome mapping, both the sequential
and the pooled strategy of `try_compile` hand every command to the
runner exactly once, in list order; a failing command never causes a
later command to be skipped. -/
theorem c3_fail_soft {α : Type} (no_parallel : Bool) (worker_limit : Nat)
    (outcome : α → ProcessState) (commands : List α) (init : Nat) :
    (try_compile no_parallel worker_limit outcome commands init).executed = commands := by
  unfold try_compile
  dsimp only
  split
  · exact execLoop_executed outcome commands init
  · split
    · rfl
    · simp only []
      rename_i h1 h2
      have : commands.length = 0 := by omega
      exact (List.length_eq_zero.mp this).symm

/-- C4: the sequential loop and the pooled imap-drain loop of
`try_compile` compute the same success count, hence the same final
`(successCount, commandCount)` pair for every command list and fixed
outcome mapping. -/
theorem c4_strategy_equiv {α : Type} (wl wl' : Nat) (outcome : α → ProcessState)
    (commands : List α) (init : Nat) :
    (execLoop outcome commands init).2 = drainLoop (imap outcome commands) init ∧
    ((try_compile true wl outcome commands init).success_count,
      (try_compile true wl outcome commands init).command_count) =
      ((try_compile false wl' outcome commands init).success_count,
        (try_compile false wl' outcome commands init).command_count) := by
  refine ⟨execLoop_eq_drain outcome commands init, ?_⟩
  unfold try_compile
  simp only [Bool.true_or, if_true, Bool.false_or]
  split
  · rfl
  · split
    · simp [execLoop_eq_drain]
    · rename_i h1 h2
      have : commands.length = 0 := by omega
      simp [List.length_eq_zero.mp this, execLoop]

/-- C5: after `try_compile` runs once with the fresh orchestrator's
`success_count = 0`, the success count never exceeds the command count
and `failed_count` is their nonnegative integer difference. -/
theorem c5_count_invariant {α : Type} (no_parallel : Bool) (worker_limit : Nat)
    (outcome : α → ProcessState) (commands : List α) :
    (try_compile no_parallel worker_limit outcome commands 0).success_count ≤
      (try_compile no_parallel worker_limit outcome commands 0).command_count ∧
    failed_count (try_compile no_parallel worker_limit outcome commands 0) =
      ((try_compile no_parallel worker_limit outcome commands 0).command_count : Int) -
        ((try_compile no_parallel worker_limit outcome commands 0).success_count : Int) ∧
    0 ≤ failed_count (try_compile no_parallel worker_limit outcome commands 0) := by
  have hle : (try_compile no_parallel worker_limit outcome commands 0).success_count ≤
      (try_compile no_parallel worker_limit outcome commands 0).command_count := by
    unfold try_compile
    dsimp only
    have h1 := drainLoop_le (imap outcome commands) 0
    have h2 : (imap outcome commands).length = commands.length := by
      simp [imap]
    rw [h2] at h1
    split
    · dsimp only
      simp only [execLoop_eq_drain]
      omega
    · split
      · dsimp only
        omega
      · simp
  refine ⟨hle, rfl, ?_⟩
  unfold failed_count
  omega

/-- C9: whenever the pooled strategy is selected (`no_parallel` unset and
at least two commands), the worker-pool size is
`min(commandCount, workerLimit)`, which never exceeds the command
count. -/
theorem c9_pool_size {α : Type} (worker_limit : Nat) (outcome : α → ProcessState)
    (commands : List α) (init : Nat) (h : 2 ≤ commands.length) :
    (try_compile false worker_limit outcome commands init).pool_size =
      some (min commands.length worker_limit) ∧
    min commands.length worker_limit ≤ commands.length := by
  constructor
  · unfold try_compile
    have h1 : (false || commands.length == 1) = false := by
      simp only [Bool.false_or, beq_eq_false_iff_ne]
      omega
    rw [if_neg (by simp [h1])]
    rw [if_pos (by omega)]
  · exact Nat.min_le_left _ _

theorem anonymizeLoop_eq_map (fs : FS) (l : List String) :
    anonymizeLoop fs l =
      l.map (fun p => if fs.isfile p then AnonEvent.anonymized p else AnonEvent.warn p) := by
  induction l with
  | nil => rfl
  | cons p ps ih =>
    simp only [anonymizeLoop, List.map_cons, ih]
    split <;> rfl

theorem anonymizeLoop_no_error (fs : FS) (l : List String) :
    AnonEvent.error ∉ anonymizeLoop fs l := by
  induction l with
  | nil => simp [anonymizeLoop]
  | cons p ps ih =>
    simp only [anonymizeLoop]
    split
    · intro h
      rcases List.mem_cons.mp h with h | h
      · exact absurd h.symm (by simp)
      · exact ih h
    · intro h
      rcases List.mem_cons.mp h with h | h
      · exact absurd h.symm (by simp)
      · exact ih h

/-- C6: when no source changed, no script is missing and incremental
building is enabled, `try_anonymize` records only the error diagnostic
and anonymizes nothing; in every other case it walks every known
artifact path, warning on each absent file and anonymizing each present
one, with no error diagnostic. -/
theorem c6_anonymize (fs : FS) (psc_paths pex_paths missing_scripts : List String)
    (ni : Bool) :
    (find_modified_scripts fs psc_paths pex_paths = [] → missing_scripts = [] →
      ni = false →
      try_anonymize fs psc_paths pex_paths missing_scripts ni = [AnonEvent.error] ∧
        ∀ p, AnonEvent.anonymized p ∉
          try_anonymize fs psc_paths pex_paths missing_scripts ni) ∧
    (¬(find_modified_scripts fs psc_paths pex_paths = [] ∧ missing_scripts = [] ∧
        ni = false) →
      try_anonymize fs psc_paths pex_paths missing_scripts ni =
        pex_paths.map
          (fun p => if fs.isfile p then AnonEvent.anonymized p else AnonEvent.warn p) ∧
        AnonEvent.error ∉ try_anonymize fs psc_paths pex_paths missing_scripts ni) := by
  constructor
  · intro h1 h2 h3
    have hcond : ((find_modified_scripts fs psc_paths pex_paths).isEmpty &&
        missing_scripts.isEmpty && !ni) = true := by
      simp [h1, h2, h3]
    unfold try_anonymize
    rw [if_pos hcond]
    exact ⟨rfl, by simp⟩
  · intro h
    have hcond : ((find_modified_scripts fs psc_paths pex_paths).isEmpty &&
        missing_scripts.isEmpty && !ni) = false := by
      rcases Bool.eq_false_or_eq_true
          ((find_modified_scripts fs psc_paths pex_paths).isEmpty &&
            missing_scripts.isEmpty && !ni) with hc | hc
      · exfalso
        apply h
        simp only [Bool.and_eq_true, List.isEmpty_iff, Bool.not_eq_true'] at hc
        exact ⟨hc.1.1, hc.1.2, hc.2⟩
      · exact hc
    unfold try_anonymize
    rw [if_neg (by simp [hcond])]
    exact ⟨anonymizeLoop_eq_map fs pex_paths, anonymizeLoop_no_error fs pex_paths⟩

/-- Witness for C6: with no sources the unmodified set is empty, so with
no missing scripts and incremental building enabled only the error
diagnostic is recorded; flipping `no_incremental_build` to `true` makes
the stage walk the single (absent) artifact and warn instead. -/
theorem c6_anonymize_witness :
    try_anonymize ⟨fun _ => 0, fun _ => false, fun _ => none⟩ [] ["a.pex"] [] false =
      [AnonEvent.error] ∧
    try_anonymize ⟨fun _ => 0, fun _ => false, fun _ => none⟩ [] ["a.pex"] [] true =
      [AnonEvent.warn "a.pex"] := by
  constructor
  · exact ((c6_anonymize ⟨fun _ => 0, fun _ => false, fun _ => none⟩ [] ["a.pex"] []
      false).1 rfl rfl rfl).1
  · have h := (c6_anonymize ⟨fun _ => 0, fun _ => false, fun _ => none⟩ [] ["a.pex"] []
      true).2 (by simp)
    rw [h.1]
    rfl

theorem deleteLoop_eq_map (canDelete : String → Bool) (l : List String) :
    deleteLoop canDelete l =
      l.map (fun q => if canDelete q then DelEvent.removed q else DelEvent.error q) := by
  induction l with
  | nil => rfl
  | cons p ps ih =>
    simp only [deleteLoop, List.map_cons, ih]
    split <;> rfl

/-- C7: the rotation deletion loop attempts every candidate exactly once
in order; a denied deletion becomes an error event and the remaining
candidates are still attempted — the run is not aborted. -/
theorem c7_rotation_fail_soft (canDelete : String → Bool)
    (candidates l1 l2 : List String) (p : String) :
    (deleteLoop canDelete candidates).length = candidates.length ∧
    deleteLoop canDelete candidates =
      candidates.map
        (fun q => if canDelete q then DelEvent.removed q else DelEvent.error q) ∧
    (canDelete p = false →
      deleteLoop canDelete (l1 ++ p :: l2) =
        deleteLoop canDelete l1 ++ DelEvent.error p :: deleteLoop canDelete l2) := by
  refine ⟨?_, deleteLoop_eq_map canDelete candidates, ?_⟩
  · rw [deleteLoop_eq_map]
    exact List.length_map _ _
  · intro hp
    simp only [deleteLoop_eq_map, List.map_append, List.map_cons, hp, if_neg]
    simp

/-- Witness for C7: with permission denied on `"b"` only, the loop over
`["a", "b", "c"]` still removes `"a"` and `"c"` around the logged
error. -/
theorem c7_rotation_fail_soft_witness :
    deleteLoop (fun q => !(q == "b")) (["a"] ++ "b" :: ["c"]) =
      deleteLoop (fun q => !(q == "b")) ["a"] ++
        DelEvent.error "b" :: deleteLoop (fun q => !(q == "b")) ["c"] :=
  (c7_rotation_fail_soft (fun q => !(q == "b")) [] ["a"] ["c"] "b").2.2 (by decide)

theorem contribution_eq_none_of_no_match (fs : FS) (pex_paths : List String)
    (q : String)
    (hq : pex_paths.filter (fun pex => endswith pex (scriptName q ++ ".pex")) = []) :
    contribution fs pex_paths q = none := by
  simp only [contribution]
  rw [hq]

/-- C2 (amended): for a source script whose first matching artifact `A`
exists on disk with a readable header, and which no other source also
contributes, `A` is in the analyzer's result iff the source's
modification time is strictly below the embedded compilation time (equal
timestamps exclude it); and a source with no matching artifact
contributes nothing — removing it leaves the result unchanged. -/
theorem c2_incremental_analyzer (fs : FS) (psc_paths pex_paths : List String)
    (psc A : String) (rest : List String) (t : Rat)
    (hmem : psc ∈ psc_paths)
    (hmatch : pex_paths.filter (fun pex => endswith pex (scriptName psc ++ ".pex")) =
      A :: rest)
    (hfile : fs.isfile A = true)
    (hhead : fs.header A = some t)
    (huniq : ∀ q ∈ psc_paths, q ≠ psc → contribution fs pex_paths q ≠ some A) :
    (A ∈ find_modified_scripts fs psc_paths pex_paths ↔ fs.mtime psc < t) ∧
    (∀ (l1 l2 : List String) (q : String),
      pex_paths.filter (fun pex => endswith pex (scriptName q ++ ".pex")) = [] →
      find_modified_scripts fs (l1 ++ q :: l2) pex_paths =
        find_modified_scripts fs (l1 ++ l2) pex_paths) := by
  constructor
  · constructor
    · intro hA
      rcases (find_modified_scripts_mem fs psc_paths pex_paths A).mp hA with ⟨q, hq, hcq⟩
      by_cases hqe : q = psc
      · subst hqe
        simp only [contribution] at hcq
        rw [hmatch] at hcq
        simp only [hfile, if_true, hhead] at hcq
        split at hcq
        · assumption
        · exact absurd hcq (by simp)
      · exact absurd hcq (huniq q hq hqe)
    · intro hlt
      refine (find_modified_scripts_mem fs psc_paths pex_paths A).mpr ⟨psc, hmem, ?_⟩
      simp only [contribution]
      rw [hmatch]
      simp [hfile, hhead, hlt]
  · intro l1 l2 q hq
    unfold find_modified_scripts
    rw [List.filterMap_append, List.filterMap_append, List.filterMap_cons,
      contribution_eq_none_of_no_match fs pex_paths q hq]

/-- Witness for C2 (amended): a single source matching a single existing,
readable artifact with equal timestamps — the iff specialises to
membership being equivalent to `5 < 5`, so the artifact is excluded. -/
theorem c2_incremental_analyzer_witness :
    ("out/Foo.pex" ∈
        find_modified_scripts ⟨fun _ => 5, fun _ => true, fun _ => some 5⟩
          ["a/Foo.psc"] ["out/Foo.pex"] ↔ (5 : Rat) < 5) ∧
    "out/Foo.pex" ∉
      find_modified_scripts ⟨fun _ => 5, fun _ => true, fun _ => some 5⟩
        ["a/Foo.psc"] ["out/Foo.pex"] := by
  have h := (c2_incremental_analyzer ⟨fun _ => 5, fun _ => true, fun _ => some 5⟩
    ["a/Foo.psc"] ["out/Foo.pex"] "a/Foo.psc" "out/Foo.pex" [] 5
    (by decide) (by decide) rfl rfl (by decide)).1
  refine ⟨h, fun hm => ?_⟩
  have := h.mp hm
  exact absurd this (by norm_num)

/-- Counterexample to C2 as stated: two source scripts (`a/Foo.psc`,
`b/Foo.psc`) share the base name `Foo`, so both match the single
artifact `out/Foo.pex`, which exists and has a readable header with
compilation time 5.  The artifact is in the result (the second source,
mtime 0, is older than 5), yet the first source's mtime 10 is not below
5 — the claimed "if and only if" fails for `a/Foo.psc`. -/
theorem c2_incremental_analyzer_counterexample :
    "out/Foo.pex" ∈
      find_modified_scripts
        ⟨fun p => if p = "a/Foo.psc" then 10 else 0, fun _ => true, fun _ => some 5⟩
        ["a/Foo.psc", "b/Foo.psc"] ["out/Foo.pex"] ∧
    (["out/Foo.pex"].filter
        (fun pex => endswith pex (scriptName "a/Foo.psc" ++ ".pex"))) =
      ["out/Foo.pex"] ∧
    (FS.isfile
        ⟨fun p => if p = "a/Foo.psc" then 10 else 0, fun _ => true, fun _ => some 5⟩
        "out/Foo.pex" = true) ∧
    (FS.header
        ⟨fun p => if p = "a/Foo.psc" then 10 else 0, fun _ => true, fun _ => some 5⟩
        "out/Foo.pex" = some 5) ∧
    ¬(FS.mtime
        ⟨fun p => if p = "a/Foo.psc" then 10 else 0, fun _ => true, fun _ => some 5⟩
        "a/Foo.psc" < 5) := by
  refine ⟨by decide, by decide, rfl, rfl, by norm_num⟩

theorem string_append_left_cancel (a b c : String) (h : a ++ b = a ++ c) : b = c := by
  have hd := congrArg String.data h
  simp only [String.data_append] at hd
  exact String.ext (List.append_cancel_left hd)

theorem joinPath_eq_append (d f : String) (h : startswith f "/" = false) :
    joinPath d f = (if d = "" || endswith d "/" then d else d ++ "/") ++ f := by
  unfold joinPath
  rw [if_neg (by simp [h])]
  split
  · rfl
  · rfl

theorem joinPath_inj (d f g : String) (hf : startswith f "/" = false)
    (hg : startswith g "/" = false) (h : joinPath d f = joinPath d g) : f = g := by
  rw [joinPath_eq_append d f hf, joinPath_eq_append d g hg] at h
  exact string_append_left_cancel _ _ _ h

theorem filter_not_contains_drop (l : List String) (k : Nat) (h : l.Nodup) :
    l.filter (fun f => !((l.drop k).contains f)) = l.take k := by
  set r := l.drop k with hr
  conv_lhs => rw [← List.take_append_drop k l]
  rw [List.filter_append]
  rw [hr]
  have hnd : ((l.take k) ++ (l.drop k)).Nodup := by
    rw [List.take_append_drop]
    exact h
  have hdisj : (l.take k).Disjoint (l.drop k) := (List.nodup_append.mp hnd).2.2
  have h1 : (l.take k).filter (fun f => !((l.drop k).contains f)) = l.take k := by
    refine List.filter_eq_self.mpr ?_
    intro a ha
    have : a ∉ l.drop k := hdisj ha
    simp only [Bool.not_eq_true', ← Bool.not_eq_true]
    intro hc
    exact this (List.elem_iff.mp hc)
  have h2 : (l.drop k).filter (fun f => !((l.drop k).contains f)) = [] := by
    refine List.filter_eq_nil_iff.mpr ?_
    intro a ha
    simp only [Bool.not_eq_true', Bool.not_eq_false]
    exact List.elem_iff.mpr ha
  rw [h1, h2, List.append_nil]

/-- C1: with retention count 5 and a log directory whose listing (in
creation order) holds `N` distinct run-log files, rotation selects for
deletion exactly the `N − 4` oldest and leaves the 4 most recent. -/
theorem c1_rotation (log_path : String) (listing : List String)
    (hnd : listing.Nodup)
    (hlog : ∀ f ∈ listing, endswith f ".log" = true)
    (habs : ∀ f ∈ listing, startswith f "/" = false) :
    (rotate_plan true log_path listing 5).removed =
      (listing.take (listing.length - 4)).map (joinPath log_path) ∧
    (rotate_plan true log_path listing 5).kept =
      (listing.drop (listing.length - 4)).map (joinPath log_path) := by
  unfold rotate_plan
  rw [if_neg (by simp)]
  have hfilter : listing.filter (fun f => endswith f ".log") = listing :=
    List.filter_eq_self.mpr hlog
  dsimp only
  rw [hfilter]
  by_cases hlen : listing.length > 5 - 1
  · rw [if_neg (by simpa using hlen)]
    rw [if_neg (by norm_num)]
    have hmapnd : (listing.map (joinPath log_path)).Nodup := by
      refine hnd.map_on ?_
      intro x hx y hy hxy
      exact joinPath_inj log_path x y (habs x hx) (habs y hy) hxy
    have hkey := filter_not_contains_drop (listing.map (joinPath log_path))
      ((listing.map (joinPath log_path)).length - (5 - 1)) hmapnd
    constructor
    · dsimp only
      rw [hkey, List.length_map, ← List.map_take]
    · dsimp only
      rw [List.length_map, ← List.map_drop]
  · rw [if_pos (by simpa using hlen)]
    have h0 : listing.length - 4 = 0 := by omega
    rw [h0]
    exact ⟨rfl, by rw [List.drop_zero]⟩

/-- Witness for C1: six pre-existing logs with retention 5 — exactly the
two oldest are selected for deletion and the four most recent remain. -/
theorem c1_rotation_witness :
    (rotate_plan true "logs"
        ["pyro-1.log", "pyro-2.log", "pyro-3.log", "pyro-4.log", "pyro-5.log",
          "pyro-6.log"] 5).removed =
      ["logs/pyro-1.log", "logs/pyro-2.log"] ∧
    (rotate_plan true "logs"
        ["pyro-1.log", "pyro-2.log", "pyro-3.log", "pyro-4.log", "pyro-5.log",
          "pyro-6.log"] 5).kept =
      ["logs/pyro-3.log", "logs/pyro-4.log", "logs/pyro-5.log", "logs/pyro-6.log"] := by
  have h := c1_rotation "logs"
    ["pyro-1.log", "pyro-2.log", "pyro-3.log", "pyro-4.log", "pyro-5.log", "pyro-6.log"]
    (by decide) (by decide) (by decide)
  rw [h.1, h.2]
  decide

/-- C8: the average time per script reported by `build_time` and
`CompileData.to_string` is `elapsed / successCount` when any script
succeeded, and falls back to the raw elapsed time when none did; in
particular a run with no successes and 4.2 time units elapsed reports an
average of 4.2. -/
theorem c8_average_fallback (t : TimeElapsed) (n : Nat) :
    (0 < n → TimeElapsed.average t n = TimeElapsed.value t / (n : Rat)) ∧
    TimeElapsed.average t 0 = TimeElapsed.value t ∧
    TimeElapsed.average ⟨0, 4.2⟩ 0 = (4.2 : Rat) := by
  refine ⟨fun h => ?_, ?_, ?_⟩
  · simp [TimeElapsed.average, h]
  · simp [TimeElapsed.average]
  · norm_num [TimeElapsed.average, TimeElapsed.value]

/-- Witness for C8: six time units over three successes average to two;
with zero successes the 4.2-unit elapsed time itself is reported. -/
theorem c8_average_fallback_witness :
    TimeElapsed.average ⟨0, 6⟩ 3 = (2 : Rat) ∧
    TimeElapsed.average ⟨0, 4.2⟩ 0 = (4.2 : Rat) := by
  constructor
  · have h := (c8_average_fallback ⟨0, 6⟩ 3).1 (by norm_num)
    rw [h]
    norm_num [TimeElapsed.value]
  · exact (c8_average_fallback ⟨0, 4.2⟩ 0).2.2

theorem lookup_of_mem {V : Type} (opts : List (String × V)) (k : String) (v : V)
    (h : (k, v) ∈ opts) : ∃ w, opts.lookup k = some w := by
  induction opts with
  | nil => cases h
  | cons kv rest ih =>
    obtain ⟨k', v'⟩ := kv
    cases hbeq : (k == k') with
    | true => exact ⟨v', by simp [List.lookup, hbeq]⟩
    | false =>
      rcases List.mem_cons.mp h with he | ht
      · have : k = k' := congrArg Prod.fst he
        rw [this] at hbeq
        simp at hbeq
      · rcases ih ht with ⟨w, hw⟩
        exact ⟨w, by simp [List.lookup, hbeq, hw]⟩

theorem resolve_options_lookup {V : Type} (resolver : String → V)
    (opts : List (String × V)) (k : String) :
    (resolve_options resolver opts).lookup k =
      (opts.lookup k).map (fun v => if skip_resolution k then v else resolver k) := by
  induction opts with
  | nil => rfl
  | cons kv rest ih =>
    obtain ⟨k', v'⟩ := kv
    cases hs : skip_resolution k' with
    | true =>
      simp only [resolve_options, List.map_cons, if_pos hs] at *
      cases hbeq : (k == k') with
      | true =>
        have hk : k = k' := eq_of_beq hbeq
        subst hk
        simp [List.lookup, hbeq, hs]
      | false => simp [List.lookup, hbeq, ih, resolve_options]
    | false =>
      simp only [resolve_options, List.map_cons] at *
      rw [if_neg (by simp [hs])]
      cases hbeq : (k == k') with
      | true =>
        have hk : k = k' := eq_of_beq hbeq
        subst hk
        simp [List.lookup, hbeq, hs]
      | false => simp [List.lookup, hbeq, ih, resolve_options]

/-- C10: option resolution in `__init__` leaves a field's value untouched
exactly when its name is one of the fixed six, starts with `ignore_`,
`no_`, `force_` or `resolve_`, or ends with `_token`; every other field
ends up holding the same-named resolver's value. -/
theorem c10_option_frame {V : Type} (resolver : String → V)
    (opts : List (String × V)) (k : String) :
    (skip_resolution k = true →
      (resolve_options resolver opts).lookup k = opts.lookup k) ∧
    (skip_resolution k = false → ∀ v, (k, v) ∈ opts →
      (resolve_options resolver opts).lookup k = some (resolver k)) := by
  constructor
  · intro hs
    rw [resolve_options_lookup]
    simp [hs, Option.map_id]
  · intro hs v hv
    rcases lookup_of_mem opts k v hv with ⟨w, hw⟩
    rw [resolve_options_lookup, hw]
    simp [hs]

/-- Witness for C10: the `game_path` field is overwritten by its resolver
while `no_parallel` (a `no_`-prefixed name) keeps its stored value. -/
theorem c10_option_frame_witness :
    (resolve_options (fun _ => 7) [("game_path", 1), ("no_parallel", 2)]).lookup
        "game_path" = some 7 ∧
    (resolve_options (fun _ => 7) [("game_path", 1), ("no_parallel", 2)]).lookup
        "no_parallel" =
      ([("game_path", 1), ("no_parallel", 2)].lookup "no_parallel" : Option Nat) := by
  constructor
  · exact (c10_option_frame (fun _ => 7) [("game_path", 1), ("no_parallel", 2)]
      "game_path").2 (by decide) 1 (by decide)
  · exact (c10_option_frame (fun _ => 7) [("game_path", 1), ("no_parallel", 2)]
      "no_parallel").1 (by decide)

/-- Witness for C9 at three commands and worker limit five: the pool size
is `min 3 5 = 3`. -/
theorem c9_pool_size_witness :
    (try_compile false 5 (fun _ : Nat => ProcessState.success) [0, 1, 2] 0).pool_size =
      some 3 ∧ (3 : Nat) ≤ 3 := by
  have h := c9_pool_size 5 (fun _ : Nat => ProcessState.success) [0, 1, 2] 0 (by decide)
  simpa using h

end Pyro
